import Mathlib

/-!
A verification development for the nTorrent `TorrentManager`
(src/src/torrent-manager.hpp).

The header file declares the manager and gives inline bodies for the
constructor, `processEvents` and `hasAllTorrentSegments`; the remaining
method bodies live in a `torrent-manager.cpp` that is not part of the
sources at hand, so those operations are modelled from the written
specification (each such definition carries a doc comment starting with
`Modelled from the spec:`).

Modelling conventions:
- an NDN `Name` is a list of string components (`"/ucla"` is `["ucla"]`);
- machine integers (`uint64_t` counters, sizes) are `Nat` — none of the
  modelled code relies on wrap-around;
- side effects (disk writes, network sends, user callbacks) are recorded
  in an explicit `Effect` trace returned next to the new state;
- segment indices, which in the C++ data model are carried inside names,
  are stored as explicit `Nat` fields of the decoded entities.
-/

namespace NTorrent

/-- An NDN name: a hierarchical list of components. -/
abbrev Name := List String

/-- Priority classes of the interest queue (catalog vs. data). -/
inductive Priority where
  | catalog
  | data
deriving DecidableEq, Repr

/-- One routable-prefix entry of the `StatsTable`: the routable name and
its success counter. -/
structure StatsEntry where
  routable : Name
  successes : Nat
deriving DecidableEq, Repr

/-- A decoded torrent-file segment: its own name, its segment index, the
catalog of file-manifest names it lists, and the optional name of the next
segment (`none` means the terminal segment). -/
structure TorrentFile where
  name : Name
  segmentNumber : Nat
  catalog : List Name
  torrentFilePtr : Option Name
deriving DecidableEq, Repr

/-- A decoded file-manifest segment: its own name, its sub-manifest index,
the file path it covers, packet sizes, the list of data-packet names it
lists, and the optional name of the next manifest segment. -/
structure FileManifest where
  name : Name
  submanifestNumber : Nat
  filePath : String
  dataPacketSize : Nat
  catalog : List Name
  manifestPtr : Option Name
deriving DecidableEq, Repr

/-- Per-file state: whether the file handle is open, and the presence
bitmap over the file's data packets. -/
structure FileState where
  handleOpen : Bool
  bitmap : List Bool
deriving DecidableEq, Repr

/-- One entry of the pending-interest set: the outstanding name, the
priority the request was enqueued at, the retry counter scoped to the
current routable prefix, and how many prefixes have already been
exhausted for this name. -/
structure PendingEntry where
  name : Name
  priority : Priority
  retries : Nat
  exhausted : Nat
deriving DecidableEq, Repr

/-- One entry of the interest queue: a request descriptor. -/
structure QueueEntry where
  name : Name
  priority : Priority
deriving DecidableEq, Repr

/-- The observable side effects of a manager operation. -/
inductive Effect where
  | diskWrite (file : String) (offset : Nat)
  | netSend (n : Name)
  | onSuccessCb (n : Name)
  | onFailedCb (n : Name) (reason : String)
  | deregisterPfx (p : Name)
  | closeFile (key : Name)
deriving DecidableEq, Repr

/-- The decoded content of an incoming data packet, classified by name
shape as in the inbound handler. -/
inductive DataContent where
  | torrentSeg (t : TorrentFile)
  | manifestSeg (f : FileManifest)
  | dataPkt (payload : List Nat)
deriving DecidableEq, Repr

/-- An incoming NDN data packet, already wire-decoded. -/
structure DataMsg where
  name : Name
  content : DataContent
deriving DecidableEq, Repr

/-- The full state of a `TorrentManager`, mirroring the member list of the
class in `torrent-manager.hpp` (field names drop the `m_` prefix of the
source). -/
structure TorrentManager where
  fileStates : List (Name × FileState)
  torrentSegments : List TorrentFile
  fileManifests : List FileManifest
  torrentFileName : Name
  dataPath : String
  seedFlag : Bool
  face : Option Unit
  statsTable : List StatsEntry
  statsTableIter : Nat
  retries : Nat
  sortingCounter : Nat
  pendingInterests : List PendingEntry
  interestQueue : List QueueEntry
  registeredPfxs : List Name
deriving DecidableEq, Repr

/-- `MAX_NUM_OF_RETRIES` from the enum in `torrent-manager.hpp`. -/
def MAX_NUM_OF_RETRIES : Nat := 5

/-- `SORTING_INTERVAL` from the enum in `torrent-manager.hpp`. -/
def SORTING_INTERVAL : Nat := 100

/-- `WINDOW_SIZE` from the enum in `torrent-manager.hpp`. -/
def WINDOW_SIZE : Nat := 50

/-- `StatsTable::insert`: append a fresh entry with a zeroed success
counter. (The stats-table sources are not under `src/`; insertion order
is preserved per the spec's tie-break rule.) -/
def statsInsert (table : List StatsEntry) (p : Name) : List StatsEntry :=
  table ++ [⟨p, 0⟩]

/-- The `TorrentManager` constructor, transcribed from the inline body in
`torrent-manager.hpp`: member-initializer list, interest-queue allocation,
face allocation when the caller passed none, the two hard-coded bootstrap
prefixes, and the cursor initialization to `begin()`. -/
def TorrentManager.construct (torrentFileName : Name) (dataPath : String)
    (seed : Bool) (face : Option Unit) : TorrentManager :=
  { fileStates := []
    torrentSegments := []
    fileManifests := []
    torrentFileName := torrentFileName
    dataPath := dataPath
    seedFlag := seed
    face := if face = none then some () else face
    statsTable := statsInsert (statsInsert [] ["ucla"]) ["arizona"]
    statsTableIter := 0
    retries := 0
    sortingCounter := 0
    pendingInterests := []
    interestQueue := []
    registeredPfxs := [] }

/-- The statements executed by the constructor body, in source order: all
are in-memory allocations or stats-table updates. -/
inductive CtorOp where
  | allocKeyChain
  | allocInterestQueue
  | allocFace
  | statsTableInsert (p : Name)
  | setStatsIter
deriving DecidableEq, Repr

/-- The constructor body as its sequence of statements, transcribed from
`torrent-manager.hpp` lines 354-381: the member-initializer allocations,
the conditional face allocation, the two bootstrap-prefix insertions and
the cursor initialization. -/
def constructorBody (face : Option Unit) : List CtorOp :=
  [CtorOp.allocKeyChain, CtorOp.allocInterestQueue] ++
    (if face = none then [CtorOp.allocFace] else []) ++
    [CtorOp.statsTableInsert ["ucla"], CtorOp.statsTableInsert ["arizona"],
     CtorOp.setStatsIter]

/-- Whether a constructor statement touches the disk: none does (the
collaborator interface of the disk is read/write of data files, and no
constructor statement calls it). -/
def CtorOp.touchesDisk : CtorOp → Bool
  | CtorOp.allocKeyChain => false
  | CtorOp.allocInterestQueue => false
  | CtorOp.allocFace => false
  | CtorOp.statsTableInsert _ => false
  | CtorOp.setStatsIter => false

/-- Whether a constructor statement touches the network: none does (the
face's network operations are `sendInterest`, `registerPrefix`, `put` and
`processEvents`; allocating a face object is not among them). -/
def CtorOp.touchesNetwork : CtorOp → Bool
  | CtorOp.allocKeyChain => false
  | CtorOp.allocInterestQueue => false
  | CtorOp.allocFace => false
  | CtorOp.statsTableInsert _ => false
  | CtorOp.setStatsIter => false

/-- The world outside the manager: the bytes on disk (abstracted as the
decoded entities a directory scan would yield) and the log of names sent
on the network. -/
structure World where
  diskTorrentSegs : List TorrentFile
  diskManifests : List FileManifest
  diskPackets : List Name
  netLog : List Name
deriving DecidableEq, Repr

/-- Run one constructor statement against the world: every statement is
in-memory, so the world is returned unchanged. -/
def CtorOp.run (w : World) : CtorOp → World
  | CtorOp.allocKeyChain => w
  | CtorOp.allocInterestQueue => w
  | CtorOp.allocFace => w
  | CtorOp.statsTableInsert _ => w
  | CtorOp.setStatsIter => w

/-- Run the whole constructor body against a world. -/
def runConstructor (face : Option Unit) (w : World) : World :=
  (constructorBody face).foldl CtorOp.run w

/-! ## Torrent-segment chain queries -/

/-- Look up the torrent segment with segment index `i` among the segments
this manager holds. -/
def segmentWithIndex (segs : List TorrentFile) (i : Nat) : Option TorrentFile :=
  segs.find? (fun s => s.segmentNumber == i)

/-- Modelled from the spec: the walk behind `findTorrentFileSegmentToDownload`
(its body is in the missing `torrent-manager.cpp`). Starting at segment
index `i` with `cur` the name the predecessor's next-pointer gave (the
root torrent name at index 0), follow the chain of segments already held:
a missing segment means `cur` is the lowest-indexed missing segment's
name; a held terminal segment means the chain is complete. The fuel is
chosen one larger than the number of held segments, which the walk can
never exhaust. -/
def findSegLoop (segs : List TorrentFile) (cur : Name) (i : Nat) : Nat → Option Name
  | 0 => some cur
  | fuel + 1 =>
    match segmentWithIndex segs i with
    | none => some cur
    | some s =>
      match s.torrentFilePtr with
      | none => none
      | some nxt => findSegLoop segs nxt (i + 1) fuel

/-- Modelled from the spec: `findTorrentFileSegmentToDownload` returns the
name of the lowest-indexed missing torrent segment, or nothing if the
chain is complete; when nothing is known it returns the root torrent
name. (`nullptr` of the C++ signature is `none`.) -/
def findTorrentFileSegmentToDownload (m : TorrentManager) : Option Name :=
  findSegLoop m.torrentSegments m.torrentFileName 0 (m.torrentSegments.length + 1)

/-- `hasAllTorrentSegments`, transcribed from the inline body in
`torrent-manager.hpp` lines 390-395:
`return findTorrentFileSegmentToDownload() == nullptr`. -/
def hasAllTorrentSegments (m : TorrentManager) : Bool :=
  (findTorrentFileSegmentToDownload m).isNone

/-- A segment with index `i` is held. -/
def presentAt (segs : List TorrentFile) (i : Nat) : Bool :=
  (segmentWithIndex segs i).isSome

/-- A segment with index `i` is held and is terminal (no next-pointer). -/
def terminalAt (segs : List TorrentFile) (i : Nat) : Bool :=
  match segmentWithIndex segs i with
  | some s => s.torrentFilePtr.isNone
  | none => false

/-- The name of the segment at index `i + t`, as determined by the chain:
for `t = 0` it is `cur` (the name the caller already knows), otherwise it
is the next-pointer of the held segment at index `i + t - 1`. -/
def nameAtFrom (segs : List TorrentFile) (cur : Name) (i : Nat) : Nat → Name
  | 0 => cur
  | t + 1 =>
    match segmentWithIndex segs (i + t) with
    | some s => s.torrentFilePtr.getD cur
    | none => cur

/-- The chain of torrent segments is complete: some index `k` has all of
`0..k` held and the segment at `k` terminal. -/
def ChainComplete (segs : List TorrentFile) : Prop :=
  ∃ k, (∀ j, j ≤ k → presentAt segs j = true) ∧ terminalAt segs k = true

/-- `i` is the lowest missing segment index: not held, all lower held. -/
def FirstMissingIdx (segs : List TorrentFile) (i : Nat) : Prop :=
  presentAt segs i = false ∧ ∀ j, j < i → presentAt segs j = true

/-- The walk stops at index `k`: the segment is missing or terminal. -/
def stopsAt (segs : List TorrentFile) (k : Nat) : Bool :=
  !presentAt segs k || terminalAt segs k

/-! ## File-manifest chains and data packets -/

/-- The chain a manifest segment belongs to is identified by its name
minus the trailing segment component. -/
def chainBase (manifestName : Name) : Name := manifestName.dropLast

/-- Look up the manifest segment with sub-manifest index `i` of the chain
with base name `base` among the manifests this manager holds. -/
def manifestWithIndex (mans : List FileManifest) (base : Name) (i : Nat) :
    Option FileManifest :=
  mans.find? (fun f => chainBase f.name == base && f.submanifestNumber == i)

/-- Walk the held segments of one manifest chain from sub-manifest index
`i`, concatenating their packet-name catalogs in segment order. -/
def chainCatalog (mans : List FileManifest) (base : Name) (i : Nat) : Nat → List Name
  | 0 => []
  | fuel + 1 =>
    match manifestWithIndex mans base i with
    | none => []
    | some f => f.catalog ++ chainCatalog mans base (i + 1) fuel

/-- All data-packet names of the file owned by `manifestName`'s chain, in
ascending packet-index order (catalogs of segment 0, then 1, ...). -/
def filePackets (mans : List FileManifest) (manifestName : Name) : List Name :=
  chainCatalog mans (chainBase manifestName) 0 (mans.length + 1)

/-- The presence bitmap of the file whose chain base is `base`, empty if
no `FileState` has been allocated. -/
def bitmapFor (m : TorrentManager) (base : Name) : List Bool :=
  match m.fileStates.find? (fun kv => kv.1 == base) with
  | some kv => kv.2.bitmap
  | none => []

/-- The index of packet name `p` in a packet list (the packet index). -/
def nameIdx (l : List Name) (p : Name) : Nat :=
  l.findIdx (fun q => q == p)

/-- Modelled from the spec: `hasDataPacket` (body in the missing
`torrent-manager.cpp`) is true iff the corresponding bit is set in the
owning file's bitmap — the owning file is the chain of the manifest that
lists the packet's name, and the bit position is the packet's index in
that file's packet list. -/
def hasDataPacket (m : TorrentManager) (p : Name) : Bool :=
  match m.fileManifests.find? (fun f => f.catalog.contains p) with
  | none => false
  | some f =>
    ((bitmapFor m (chainBase f.name)).getD
      (nameIdx (filePackets m.fileManifests f.name) p) false)

/-- Modelled from the spec: `findDataPacketsToDownload(manifestName, out)`
(body in the missing `torrent-manager.cpp`) appends to `out` the missing
packet names of the entire file owned by `manifestName`'s chain — the
walk always starts from the chain's first segment, whatever segment the
caller named. -/
def findDataPacketsToDownload (m : TorrentManager) (manifestName : Name)
    (packetNames : List Name) : List Name :=
  packetNames ++
    (filePackets m.fileManifests manifestName).filter (fun p => !hasDataPacket m p)

/-! ## Dynamic operations: retry ladder, outbound pump, inbound handler,
shutdown, Initialize -/

/-- The names in the pending-interest set. -/
def pendingNames (m : TorrentManager) : List Name :=
  m.pendingInterests.map PendingEntry.name

/-- Remove every entry for name `n` from the pending set. -/
def removePending (l : List PendingEntry) (n : Name) : List PendingEntry :=
  l.filter (fun e => ! (e.name == n))

/-- Record a success for the stats-table entry at position `i`. -/
def recordSuccess (table : List StatsEntry) (i : Nat) : List StatsEntry :=
  table.mapIdx (fun j e => if j = i then ⟨e.routable, e.successes + 1⟩ else e)

/-- Modelled from the spec: the retry ladder (the timeout and
validation-failure handling of the missing `torrent-manager.cpp`). For
the outstanding entry of name `n`: the retry counter scoped to the
current prefix increments; while it stays below `MAX_NUM_OF_RETRIES` the
request is re-enqueued at its original priority with the cursor
untouched (same prefix); on the fifth consecutive failure the cursor
advances, the counter resets, and the request is re-enqueued for the new
prefix — unless that advance would pass the last untried prefix, in
which case the request is terminally failed: the per-object `onFailed`
callback fires with the last failure reason, the name leaves the pending
set, and nothing is re-enqueued. -/
def onRequestFailure (m : TorrentManager) (n : Name) (reason : String) :
    TorrentManager × List Effect :=
  match m.pendingInterests.find? (fun e => e.name == n) with
  | none => (m, [])
  | some e =>
    let r := e.retries + 1
    if r < MAX_NUM_OF_RETRIES then
      ({ m with
          pendingInterests := m.pendingInterests.map
            (fun e2 => if e2.name == n then ⟨e2.name, e2.priority, r, e2.exhausted⟩ else e2),
          interestQueue := m.interestQueue ++ [⟨n, e.priority⟩] }, [])
    else
      let ex := e.exhausted + 1
      if ex < m.statsTable.length then
        ({ m with
            pendingInterests := m.pendingInterests.map
              (fun e2 => if e2.name == n then ⟨e2.name, e2.priority, 0, ex⟩ else e2),
            statsTableIter := (m.statsTableIter + 1) % m.statsTable.length,
            interestQueue := m.interestQueue ++ [⟨n, e.priority⟩] }, [])
      else
        ({ m with
            pendingInterests := removePending m.pendingInterests n,
            statsTableIter := (m.statsTableIter + 1) % m.statsTable.length },
         [Effect.onFailedCb n reason])

/-- Modelled from the spec: the loop of the outbound pump — while the
pending window has slack and the interest queue is non-empty, move the
front descriptor into the pending set and emit its request. Returns the
rest of the queue, the grown pending set, and the names sent. -/
def pumpLoop : List QueueEntry → List PendingEntry → List Name →
    List QueueEntry × List PendingEntry × List Name
  | [], pend, sent => ([], pend, sent)
  | q :: qs, pend, sent =>
    if pend.length < WINDOW_SIZE then
      pumpLoop qs (pend ++ [⟨q.name, q.priority, 0, 0⟩]) (sent ++ [q.name])
    else (q :: qs, pend, sent)

/-- Modelled from the spec: `sendInterest` (body in the missing
`torrent-manager.cpp`): drain the interest queue into the pending window,
emitting one network send per request and counting each toward the
sorting counter. (The periodic re-sort of the stats table — a permutation
of its entries every `SORTING_INTERVAL` sends — is not modelled: no claim
observes the table's order.) -/
def sendInterest (m : TorrentManager) : TorrentManager × List Effect :=
  let res := pumpLoop m.interestQueue m.pendingInterests []
  ({ m with
      interestQueue := res.1
      pendingInterests := res.2.1
      sortingCounter := m.sortingCounter + res.2.2.length },
   res.2.2.map Effect.netSend)

/-- Modelled from the spec: validation of an incoming packet (§4.6 step 3
of the spec; cryptographic checks are abstracted into the catalog checks,
names being content-addressed): the decoded entity's name must match the
request, a non-initial torrent segment must be the one the predecessor's
next-pointer names, a manifest segment must be listed by a known torrent
segment or named by a known manifest's next-pointer, and a data packet
must be listed by a known manifest. -/
def validateMsg (m : TorrentManager) (d : DataMsg) : Bool :=
  match d.content with
  | DataContent.torrentSeg t =>
    t.name == d.name &&
      (t.segmentNumber == 0 ||
        m.torrentSegments.any (fun s => s.torrentFilePtr == some d.name))
  | DataContent.manifestSeg f =>
    f.name == d.name &&
      (m.torrentSegments.any (fun s => s.catalog.contains d.name) ||
        m.fileManifests.any (fun g => g.manifestPtr == some d.name))
  | DataContent.dataPkt _ =>
    m.fileManifests.any (fun f => f.catalog.contains d.name)

/-- Modelled from the spec: successful receipt of a torrent segment —
append it to the chain, write it to disk, enqueue its successor (catalog
priority) and the first segment of each manifest it lists. -/
def processTorrentSeg (m : TorrentManager) (t : TorrentFile) :
    TorrentManager × List Effect :=
  ({ m with
      torrentSegments := m.torrentSegments ++ [t]
      pendingInterests := removePending m.pendingInterests t.name
      interestQueue := m.interestQueue ++
        (match t.torrentFilePtr with
         | some nxt => [⟨nxt, Priority.catalog⟩]
         | none => []) ++
        t.catalog.map (fun c => ⟨c, Priority.catalog⟩) },
   [Effect.diskWrite "torrent" t.segmentNumber])

/-- Modelled from the spec: successful receipt of a manifest segment —
append it, write it to disk, and either enqueue its successor or, when it
completes its chain, allocate the `FileState` (zero bitmap over the whole
file) and enqueue every packet of the file at data priority. -/
def processManifestSeg (m : TorrentManager) (f : FileManifest) :
    TorrentManager × List Effect :=
  let m1 := { m with
      fileManifests := m.fileManifests ++ [f]
      pendingInterests := removePending m.pendingInterests f.name }
  match f.manifestPtr with
  | some nxt =>
    ({ m1 with interestQueue := m1.interestQueue ++ [⟨nxt, Priority.catalog⟩] },
     [Effect.diskWrite "manifests" f.submanifestNumber])
  | none =>
    ({ m1 with
        fileStates := m1.fileStates ++
          [(chainBase f.name,
            ⟨true, List.replicate (filePackets m1.fileManifests f.name).length false⟩)]
        interestQueue := m1.interestQueue ++
          (filePackets m1.fileManifests f.name).map (fun p => ⟨p, Priority.data⟩) },
     [Effect.diskWrite "manifests" f.submanifestNumber])

/-- Modelled from the spec: successful receipt of a data packet — find
the owning manifest, write the payload at the packet's offset, set the
bitmap bit, fire the per-packet success callback, and hand the packet to
the face when seeding. -/
def processDataPkt (m : TorrentManager) (n : Name) : TorrentManager × List Effect :=
  match m.fileManifests.find? (fun f => f.catalog.contains n) with
  | none => (m, [])
  | some f =>
    let i := nameIdx (filePackets m.fileManifests f.name) n
    ({ m with
        fileStates := m.fileStates.map
          (fun kv => if kv.1 == chainBase f.name
            then (kv.1, ⟨kv.2.handleOpen, kv.2.bitmap.set i true⟩) else kv)
        pendingInterests := removePending m.pendingInterests n },
     [Effect.diskWrite f.filePath (i * f.dataPacketSize), Effect.onSuccessCb n] ++
       (if m.seedFlag then [Effect.netSend n] else []))

/-- Modelled from the spec: the inbound data handler `onDataReceived`
(§4.6 of the spec; declared at line 298 of the header). A packet whose
name is not pending is discarded. A pending packet is validated; on
validation failure the retry ladder runs; on success the per-kind
processing runs, the cursor's prefix is credited, and the name leaves the
pending set inside the per-kind processing. -/
def onDataReceived (m : TorrentManager) (d : DataMsg) : TorrentManager × List Effect :=
  if (m.pendingInterests.find? (fun e => e.name == d.name)).isNone then (m, [])
  else if validateMsg m d then
    let res :=
      match d.content with
      | DataContent.torrentSeg t => processTorrentSeg m t
      | DataContent.manifestSeg f => processManifestSeg m f
      | DataContent.dataPkt _ => processDataPkt m d.name
    ({ res.1 with statsTable := recordSuccess res.1.statsTable m.statsTableIter },
     res.2)
  else onRequestFailure m d.name "ValidationFailed"

/-- Modelled from the spec: `shutdown` (declared at lines 153-157 of the
header) — cancel every pending request without firing its callbacks,
empty the interest queue, close every `FileState` file handle, and
deregister every registered prefix. -/
def shutdown (m : TorrentManager) : TorrentManager × List Effect :=
  ({ m with
      pendingInterests := []
      interestQueue := []
      fileStates := m.fileStates.map (fun kv => (kv.1, ⟨false, kv.2.bitmap⟩))
      registeredPfxs := [] },
   m.registeredPfxs.map Effect.deregisterPfx ++
     m.fileStates.map (fun kv => Effect.closeFile kv.1))

/-- Add a serving prefix, keeping the registered set duplicate-free (a
prefix already registered with the face is not registered again). -/
def registerPfx (acc : List Name) (p : Name) : List Name :=
  if p ∈ acc then acc else acc ++ [p]

/-- Register a batch of serving prefixes in order. -/
def registerAll (acc : List Name) (ps : List Name) : List Name :=
  ps.foldl registerPfx acc

/-- The initial (index 0) segments of the manifests held. -/
def initialManifests (mans : List FileManifest) : List FileManifest :=
  mans.filter (fun f => f.submanifestNumber == 0)

/-- Rebuild the `FileState` table from a disk scan: for each known chain,
the bitmap marks which of the file's packets are on disk; files with no
packet present get no state. -/
def buildFileStates (mans : List FileManifest) (pkts : List Name) :
    List (Name × FileState) :=
  (initialManifests mans).filterMap (fun f =>
    let bm := (filePackets mans f.name).map (fun p => pkts.contains p)
    if bm.any id then some (chainBase f.name, ⟨true, bm⟩) else none)

/-- Modelled from the spec: `Initialize` (declared at lines 84-85 of the
header) — scan the data directory, reconstitute every torrent segment and
every manifest validated against the catalogs found, rebuild the
`FileState` bitmaps from the packets on disk, and register serving
prefixes for every partially-present file and for the torrent root.
Reading the directory leaves the disk unchanged. -/
def Initialize (m : TorrentManager) (d : World) : TorrentManager :=
  let segs := d.diskTorrentSegs
  let mans := d.diskManifests.filter (fun f =>
    segs.any (fun s => s.catalog.contains f.name) ||
      d.diskManifests.any (fun g => g.manifestPtr == some f.name))
  let fstates := buildFileStates mans d.diskPackets
  { m with
      torrentSegments := segs
      fileManifests := mans
      fileStates := fstates
      registeredPfxs := registerAll m.registeredPfxs
        (fstates.map Prod.fst ++ [m.torrentFileName]) }

/-- One event-loop step of the manager: the outbound pump, an incoming
data packet, a timeout or validation failure, an enqueue performed by one
of the download operations, `shutdown`, or `Initialize`. -/
inductive Step : TorrentManager → TorrentManager → Prop where
  | pump (m : TorrentManager) : Step m (sendInterest m).1
  | recv (m : TorrentManager) (d : DataMsg) : Step m (onDataReceived m d).1
  | fail (m : TorrentManager) (n : Name) (reason : String) :
      Step m (onRequestFailure m n reason).1
  | enqueue (m : TorrentManager) (q : QueueEntry) :
      Step m { m with interestQueue := m.interestQueue ++ [q] }
  | halt (m : TorrentManager) : Step m (shutdown m).1
  | init (m : TorrentManager) (d : World) : Step m (Initialize m d)

/-- Whether an effect is an `onSuccess` user callback. -/
def Effect.isSuccessCb : Effect → Bool
  | Effect.onSuccessCb _ => true
  | _ => false

/-- Whether an effect is an `onFailed` user callback. -/
def Effect.isFailedCb : Effect → Bool
  | Effect.onFailedCb _ _ => true
  | _ => false

/-- Whether an effect is a disk write or a success callback (the two
observable outcomes of accepting a data packet). -/
def Effect.isWriteOrSuccess : Effect → Bool
  | Effect.diskWrite _ _ => true
  | Effect.onSuccessCb _ => true
  | _ => false

/-- Iterate the failure handler `k` times for the same name, accumulating
the emitted effects (the trace of `k` consecutive timeouts or validation
failures of one request). -/
def failTimes (m : TorrentManager) (n : Name) (reason : String) :
    Nat → TorrentManager × List Effect
  | 0 => (m, [])
  | k + 1 =>
    let p := failTimes m n reason k
    let q := onRequestFailure p.1 n reason
    (q.1, p.2 ++ q.2)

lemma segmentWithIndex_number {segs : List TorrentFile} {i : Nat} {s : TorrentFile}
    (h : segmentWithIndex segs i = some s) : s.segmentNumber = i := by
  have hp := List.find?_some h
  simpa using hp

lemma segmentWithIndex_mem {segs : List TorrentFile} {i : Nat} {s : TorrentFile}
    (h : segmentWithIndex segs i = some s) : s ∈ segs :=
  List.mem_of_find?_eq_some h

lemma terminalAt_present {segs : List TorrentFile} {i : Nat}
    (h : terminalAt segs i = true) : presentAt segs i = true := by
  unfold terminalAt at h
  unfold presentAt
  cases hseg : segmentWithIndex segs i with
  | none => rw [hseg] at h; exact absurd h (by simp)
  | some s => simp

/-- Pigeonhole: a list of `L` segments cannot hold all of the `L + 1`
distinct indices `0..L`, so some index `≤ L` is missing. -/
lemma exists_absent_index (segs : List TorrentFile) :
    ∃ i, i ≤ segs.length ∧ presentAt segs i = false := by
  by_contra hco
  push_neg at hco
  have hp : ∀ i : Nat, ∃ s, i ≤ segs.length → s ∈ segs ∧ s.segmentNumber = i := by
    intro i
    by_cases hi : i ≤ segs.length
    · have hpres : presentAt segs i = true := by
        have := hco i hi
        revert this
        cases presentAt segs i <;> simp
      obtain ⟨s, hs⟩ := Option.isSome_iff_exists.1 hpres
      exact ⟨s, fun _ => ⟨segmentWithIndex_mem hs, segmentWithIndex_number hs⟩⟩
    · exact ⟨⟨[], 0, [], none⟩, fun h => absurd h hi⟩
  choose f hf using hp
  have hcard : (Finset.range (segs.length + 1)).card ≤ segs.toFinset.card := by
    apply Finset.card_le_card_of_injOn f
    · intro i hi
      have hi' : i ≤ segs.length := by
        have := Finset.mem_range.1 hi; omega
      exact List.mem_toFinset.2 (hf i hi').1
    · intro i hi j hj hij
      have hi' : i ≤ segs.length := by
        have := Finset.mem_range.1 hi; omega
      have hj' : j ≤ segs.length := by
        have := Finset.mem_range.1 hj; omega
      rw [← (hf i hi').2, ← (hf j hj').2, hij]
  have hlen : segs.toFinset.card ≤ segs.length := segs.toFinset_card_le
  rw [Finset.card_range] at hcard
  omega

/-- If the first `t` indices from `i` are held and non-terminal and the
segment at `i + t` is held and terminal, the walk returns `none`. -/
lemma findSegLoop_terminal (segs : List TorrentFile) :
    ∀ t i cur fuel, t < fuel →
      (∀ j, j < t → presentAt segs (i + j) = true ∧ terminalAt segs (i + j) = false) →
      terminalAt segs (i + t) = true →
      findSegLoop segs cur i fuel = none := by
  intro t
  induction t with
  | zero =>
    intro i cur fuel hfuel _ hterm
    obtain ⟨fuel, rfl⟩ : ∃ f, fuel = f + 1 := ⟨fuel - 1, by omega⟩
    rw [Nat.add_zero] at hterm
    unfold terminalAt at hterm
    cases hseg : segmentWithIndex segs i with
    | none => rw [hseg] at hterm; exact absurd hterm (by simp)
    | some s =>
      rw [hseg] at hterm
      have hptr : s.torrentFilePtr = none := Option.isNone_iff_eq_none.mp hterm
      simp [findSegLoop, hseg, hptr]
  | succ t ih =>
    intro i cur fuel hfuel hpre hterm
    obtain ⟨fuel, rfl⟩ : ∃ f, fuel = f + 1 := ⟨fuel - 1, by omega⟩
    have h0 := hpre 0 (by omega)
    rw [Nat.add_zero] at h0
    obtain ⟨s, hseg⟩ := Option.isSome_iff_exists.1 h0.1
    have hterm0 : s.torrentFilePtr.isNone = false := by
      have h2 := h0.2
      unfold terminalAt at h2
      rw [hseg] at h2
      simpa using h2
    obtain ⟨nxt, hptr⟩ : ∃ nxt, s.torrentFilePtr = some nxt :=
      Option.ne_none_iff_exists'.mp (fun hn => by rw [hn] at hterm0; simp at hterm0)
    have hstep : findSegLoop segs cur i (fuel + 1) = findSegLoop segs nxt (i + 1) fuel := by
      simp [findSegLoop, hseg, hptr]
    rw [hstep]
    apply ih (i + 1) nxt fuel (by omega)
    · intro j hj
      have := hpre (j + 1) (by omega)
      have harith : i + (j + 1) = i + 1 + j := by omega
      rw [harith] at this
      exact this
    · have harith : i + (t + 1) = i + 1 + t := by omega
      rw [harith] at hterm
      exact hterm

/-- If the first `t` indices from `i` are held and non-terminal and the
segment at `i + t` is missing, the walk returns the name the chain gives
that segment. -/
lemma findSegLoop_missing (segs : List TorrentFile) :
    ∀ t i cur fuel, t < fuel →
      (∀ j, j < t → presentAt segs (i + j) = true ∧ terminalAt segs (i + j) = false) →
      presentAt segs (i + t) = false →
      findSegLoop segs cur i fuel = some (nameAtFrom segs cur i t) := by
  intro t
  induction t with
  | zero =>
    intro i cur fuel hfuel _ hmiss
    obtain ⟨fuel, rfl⟩ : ∃ f, fuel = f + 1 := ⟨fuel - 1, by omega⟩
    rw [Nat.add_zero] at hmiss
    have hseg : segmentWithIndex segs i = none := by
      unfold presentAt at hmiss
      revert hmiss
      cases segmentWithIndex segs i <;> simp
    simp [findSegLoop, hseg, nameAtFrom]
  | succ t ih =>
    intro i cur fuel hfuel hpre hmiss
    obtain ⟨fuel, rfl⟩ : ∃ f, fuel = f + 1 := ⟨fuel - 1, by omega⟩
    have h0 := hpre 0 (by omega)
    rw [Nat.add_zero] at h0
    obtain ⟨s, hseg⟩ := Option.isSome_iff_exists.1 h0.1
    have hterm0 : s.torrentFilePtr.isNone = false := by
      have h2 := h0.2
      unfold terminalAt at h2
      rw [hseg] at h2
      simpa using h2
    obtain ⟨nxt, hptr⟩ : ∃ nxt, s.torrentFilePtr = some nxt :=
      Option.ne_none_iff_exists'.mp (fun hn => by rw [hn] at hterm0; simp at hterm0)
    have hstep : findSegLoop segs cur i (fuel + 1) = findSegLoop segs nxt (i + 1) fuel := by
      simp [findSegLoop, hseg, hptr]
    rw [hstep]
    have hrec := ih (i + 1) nxt fuel (by omega)
      (by
        intro j hj
        have := hpre (j + 1) (by omega)
        have harith : i + (j + 1) = i + 1 + j := by omega
        rw [harith] at this
        exact this)
      (by
        have harith : i + (t + 1) = i + 1 + t := by omega
        rw [harith] at hmiss
        exact hmiss)
    rw [hrec]
    congr 1
    cases t with
    | zero => simp [nameAtFrom, hseg, hptr]
    | succ u =>
      have hu := hpre (u + 1) (by omega)
      obtain ⟨s2, hseg2⟩ := Option.isSome_iff_exists.1 hu.1
      have hterm2 : s2.torrentFilePtr.isNone = false := by
        have h2 := hu.2
        unfold terminalAt at h2
        rw [hseg2] at h2
        simpa using h2
      obtain ⟨nxt2, hptr2⟩ : ∃ v, s2.torrentFilePtr = some v :=
        Option.ne_none_iff_exists'.mp (fun hn => by rw [hn] at hterm2; simp at hterm2)
      have harith : i + (u + 1) = i + 1 + u := by omega
      rw [harith] at hseg2
      simp [nameAtFrom, hseg2, hptr2, harith]

lemma stopsAt_false {segs : List TorrentFile} {k : Nat} (h : stopsAt segs k = false) :
    presentAt segs k = true ∧ terminalAt segs k = false := by
  unfold stopsAt at h
  constructor
  · revert h; cases presentAt segs k <;> simp
  · revert h; cases terminalAt segs k <;> simp

lemma stopsAt_true {segs : List TorrentFile} {k : Nat} (h : stopsAt segs k = true) :
    presentAt segs k = false ∨ terminalAt segs k = true := by
  unfold stopsAt at h
  revert h
  cases presentAt segs k <;> cases terminalAt segs k <;> simp

lemma stops_exists (segs : List TorrentFile) :
    ∃ k, k ≤ segs.length ∧ stopsAt segs k = true := by
  obtain ⟨i, hi, habs⟩ := exists_absent_index segs
  refine ⟨i, hi, ?_⟩
  unfold stopsAt
  rw [habs]
  simp

lemma stopsAt_exists (segs : List TorrentFile) : ∃ k, stopsAt segs k = true := by
  obtain ⟨i, _, h⟩ := stops_exists segs
  exact ⟨i, h⟩

/-- `findTorrentFileSegmentToDownload` returns `none` exactly when the
chain of torrent segments is complete. -/
lemma find_eq_none_iff_complete (m : TorrentManager) :
    findTorrentFileSegmentToDownload m = none ↔ ChainComplete m.torrentSegments := by
  set segs := m.torrentSegments with hsegs
  have hex : ∃ k, stopsAt segs k = true := stopsAt_exists segs
  set t0 := Nat.find hex with ht0
  have hstop : stopsAt segs t0 = true := Nat.find_spec hex
  have ht0le : t0 ≤ segs.length := by
    obtain ⟨i, hi, hs⟩ := stops_exists segs
    exact le_trans (Nat.find_min' hex hs) hi
  have hpre : ∀ j, j < t0 → presentAt segs j = true ∧ terminalAt segs j = false := by
    intro j hj
    have := Nat.find_min hex hj
    exact stopsAt_false (by revert this; cases stopsAt segs j <;> simp)
  constructor
  · intro hnone
    by_cases hterm : terminalAt segs t0 = true
    · refine ⟨t0, ?_, hterm⟩
      intro j hj
      rcases Nat.lt_or_ge j t0 with hlt | hge
      · exact (hpre j hlt).1
      · have : j = t0 := by omega
        rw [this]
        exact terminalAt_present hterm
    · have hmiss : presentAt segs t0 = false := by
        rcases stopsAt_true hstop with h | h
        · exact h
        · exact absurd h hterm
      have := findSegLoop_missing segs t0 0 m.torrentFileName (segs.length + 1)
        (by omega) (by intro j hj; simpa using hpre j (by omega)) (by simpa using hmiss)
      rw [findTorrentFileSegmentToDownload] at hnone
      rw [← hsegs] at hnone
      rw [this] at hnone
      exact absurd hnone (by simp)
  · rintro ⟨k, hdense, hterm⟩
    have hstk : stopsAt segs k = true := by
      unfold stopsAt
      rw [hterm]
      simp
    have ht0k : t0 ≤ k := Nat.find_min' hex hstk
    have hprest0 : presentAt segs t0 = true := hdense t0 ht0k
    have htermt0 : terminalAt segs t0 = true := by
      rcases stopsAt_true hstop with h | h
      · rw [hprest0] at h; exact absurd h (by simp)
      · exact h
    have := findSegLoop_terminal segs t0 0 m.torrentFileName (segs.length + 1)
      (by omega) (by intro j hj; simpa using hpre j (by omega)) (by simpa using htermt0)
    rw [findTorrentFileSegmentToDownload, ← hsegs, this]

/-- When the chain is not complete, `findTorrentFileSegmentToDownload`
returns the name assigned by the chain to the lowest missing index. -/
lemma find_eq_first_missing (m : TorrentManager) (i : Nat)
    (hfm : FirstMissingIdx m.torrentSegments i)
    (hnc : ¬ ChainComplete m.torrentSegments) :
    findTorrentFileSegmentToDownload m =
      some (nameAtFrom m.torrentSegments m.torrentFileName 0 i) := by
  set segs := m.torrentSegments with hsegs
  obtain ⟨hmiss, hlow⟩ := hfm
  have hterm : ∀ j, j ≤ i → terminalAt segs j = false := by
    intro j hj
    by_contra hcon
    have hjt : terminalAt segs j = true := by
      revert hcon; cases terminalAt segs j <;> simp
    apply hnc
    refine ⟨j, ?_, hjt⟩
    intro j2 hj2
    rcases Nat.lt_or_ge j2 i with hlt | hge
    · exact hlow j2 hlt
    · have hji : j < i := by
        rcases Nat.lt_or_ge j i with h | h
        · exact h
        · have : j = i := by omega
          rw [this] at hjt
          have := terminalAt_present hjt
          rw [hmiss] at this
          exact absurd this (by simp)
      omega
  have hfuel : i < segs.length + 1 := by
    by_contra hcon
    push_neg at hcon
    obtain ⟨a, ha, habs⟩ := exists_absent_index segs
    have := hlow a (by omega)
    rw [habs] at this
    exact absurd this (by simp)
  have := findSegLoop_missing segs i 0 m.torrentFileName (segs.length + 1)
    hfuel
    (by
      intro j hj
      refine ⟨by simpa using hlow j hj, by simpa using hterm j (by omega)⟩)
    (by simpa using hmiss)
  rw [findTorrentFileSegmentToDownload, ← hsegs, this]

/-- Claim C2: `hasAllTorrentSegments()` returns true exactly when the
chain of torrent segments is complete (terminal segment present, no
gaps), equivalently exactly when `findTorrentFileSegmentToDownload()`
returns nothing. -/
theorem hasAllTorrentSegments_iff_complete (m : TorrentManager) :
    (hasAllTorrentSegments m = true ↔ ChainComplete m.torrentSegments) ∧
    (hasAllTorrentSegments m = true ↔ findTorrentFileSegmentToDownload m = none) := by
  constructor
  · rw [hasAllTorrentSegments, Option.isNone_iff_eq_none]
    exact find_eq_none_iff_complete m
  · rw [hasAllTorrentSegments, Option.isNone_iff_eq_none]

/-- Claim C3: `findTorrentFileSegmentToDownload()` returns nothing exactly
when the chain is complete; when no torrent segment is known at all it
returns the root torrent name; and otherwise it returns the name the
chain assigns to the lowest-indexed missing segment. -/
theorem findTorrentFileSegmentToDownload_spec (m : TorrentManager) :
    (findTorrentFileSegmentToDownload m = none ↔ ChainComplete m.torrentSegments) ∧
    (m.torrentSegments = [] → findTorrentFileSegmentToDownload m = some m.torrentFileName) ∧
    (∀ i, FirstMissingIdx m.torrentSegments i → ¬ ChainComplete m.torrentSegments →
      findTorrentFileSegmentToDownload m =
        some (nameAtFrom m.torrentSegments m.torrentFileName 0 i)) := by
  refine ⟨find_eq_none_iff_complete m, ?_, ?_⟩
  · intro hnil
    rw [findTorrentFileSegmentToDownload, hnil]
    simp [findSegLoop, segmentWithIndex]
  · intro i hfm hnc
    exact find_eq_first_missing m i hfm hnc

lemma nameIdx_getElem {l : List Name} (h : l.Nodup) :
    ∀ i, ∀ hi : i < l.length, nameIdx l (l.get ⟨i, hi⟩) = i := by
  induction l with
  | nil => intro i hi; exact absurd hi (by simp)
  | cons a as ih =>
    intro i hi
    rw [List.nodup_cons] at h
    cases i with
    | zero => simp [nameIdx, List.findIdx_cons]
    | succ n =>
      have hn : n < as.length := by simpa using hi
      have hmem : as[n] ∈ as := as.get_mem n hn
      have hne : (a == as[n]) = false := by
        have hx : a ≠ as[n] := fun he => h.1 (he ▸ hmem)
        simpa using hx
      have hstep : nameIdx (a :: as) ((a :: as).get ⟨n + 1, hi⟩) =
          nameIdx as (as.get ⟨n, hn⟩) + 1 := by
        simp [nameIdx, List.findIdx_cons, hne]
      rw [hstep, ih h.2 n hn]

lemma nodup_pairwise_nameIdx {l : List Name} (h : l.Nodup) :
    l.Pairwise (fun a b => nameIdx l a < nameIdx l b) := by
  rw [List.pairwise_iff_get]
  intro i j hij
  rw [nameIdx_getElem h i.1 i.2, nameIdx_getElem h j.1 j.2]
  exact hij

/-- Claim C5: `findDataPacketsToDownload` appends exactly the missing
data-packet names of the entire file owned by the named chain, whichever
segment of the chain the caller names, in ascending packet-index order. -/
theorem findDataPacketsToDownload_spec (m : TorrentManager) (n1 n2 : Name)
    (out : List Name) :
    (chainBase n1 = chainBase n2 →
      findDataPacketsToDownload m n1 out = findDataPacketsToDownload m n2 out) ∧
    (∃ missing,
      findDataPacketsToDownload m n1 out = out ++ missing ∧
      missing.Sublist (filePackets m.fileManifests n1) ∧
      (∀ p, p ∈ missing ↔
        p ∈ filePackets m.fileManifests n1 ∧ hasDataPacket m p = false) ∧
      ((filePackets m.fileManifests n1).Nodup →
        missing.Pairwise (fun a b =>
          nameIdx (filePackets m.fileManifests n1) a <
            nameIdx (filePackets m.fileManifests n1) b))) := by
  constructor
  · intro hbase
    unfold findDataPacketsToDownload filePackets
    rw [hbase]
  · refine ⟨(filePackets m.fileManifests n1).filter (fun p => !hasDataPacket m p),
      rfl, List.filter_sublist _, ?_, ?_⟩
    · intro p
      rw [List.mem_filter]
      constructor
      · rintro ⟨hmem, hflt⟩
        refine ⟨hmem, ?_⟩
        revert hflt
        cases hasDataPacket m p <;> simp
      · rintro ⟨hmem, hfalse⟩
        exact ⟨hmem, by rw [hfalse]; rfl⟩
    · intro hnd
      exact (nodup_pairwise_nameIdx hnd).sublist (List.filter_sublist _)

/-- Claim C9: the constructor only sets parameters and performs no I/O —
every statement of its body is classified as touching neither disk nor
network, and running the body leaves the outside world (disk contents and
network log) unchanged, for every argument tuple. -/
theorem constructor_touches_no_world (torrentFileName : Name) (dataPath : String)
    (seed : Bool) (face : Option Unit) (w : World) :
    ((constructorBody face).all
        (fun op => ! op.touchesDisk && ! op.touchesNetwork)) = true ∧
    runConstructor face w = w ∧
    (TorrentManager.construct torrentFileName dataPath seed face).torrentFileName
      = torrentFileName ∧
    (TorrentManager.construct torrentFileName dataPath seed face).dataPath = dataPath ∧
    (TorrentManager.construct torrentFileName dataPath seed face).seedFlag = seed := by
  refine ⟨?_, ?_, ?_, ?_, ?_⟩
  · cases face <;> rfl
  · cases face <;> rfl
  · rfl
  · rfl
  · rfl

/-- Claim C10: after construction the stats table holds exactly the two
bootstrap prefixes `/ucla` then `/arizona` in insertion order, the
routable-prefix cursor is at the first entry, the retry and sorting
counters are zero, and the face handle is never null (the manager
allocates its own face when the argument is null). -/
theorem constructor_initial_state (torrentFileName : Name) (dataPath : String)
    (seed : Bool) (face : Option Unit) :
    (TorrentManager.construct torrentFileName dataPath seed face).statsTable =
        [⟨["ucla"], 0⟩, ⟨["arizona"], 0⟩] ∧
    (TorrentManager.construct torrentFileName dataPath seed face).statsTableIter = 0 ∧
    (TorrentManager.construct torrentFileName dataPath seed face).retries = 0 ∧
    (TorrentManager.construct torrentFileName dataPath seed face).sortingCounter = 0 ∧
    (TorrentManager.construct torrentFileName dataPath seed face).face.isSome = true := by
  cases face with
  | none => exact ⟨rfl, rfl, rfl, rfl, rfl⟩
  | some u => exact ⟨rfl, rfl, rfl, rfl, rfl⟩

/-- Claim C8: `shutdown` empties the pending set and the interest queue,
closes every file handle, deregisters every registered prefix, and fires
no per-object callback. -/
theorem shutdown_spec (m : TorrentManager) :
    (shutdown m).1.pendingInterests = [] ∧
    (shutdown m).1.interestQueue = [] ∧
    (shutdown m).1.registeredPfxs = [] ∧
    (∀ kv ∈ (shutdown m).1.fileStates, kv.2.handleOpen = false) ∧
    (∀ e ∈ (shutdown m).2, e.isSuccessCb = false ∧ e.isFailedCb = false) ∧
    (∀ p ∈ m.registeredPfxs, Effect.deregisterPfx p ∈ (shutdown m).2) ∧
    (∀ kv ∈ m.fileStates, Effect.closeFile kv.1 ∈ (shutdown m).2) := by
  refine ⟨rfl, rfl, rfl, ?_, ?_, ?_, ?_⟩
  · intro kv hkv
    unfold shutdown at hkv
    simp only [List.mem_map] at hkv
    obtain ⟨kv0, _, hkv0⟩ := hkv
    rw [← hkv0]
  · intro e he
    unfold shutdown at he
    simp only [List.mem_append, List.mem_map] at he
    rcases he with ⟨p, _, hp⟩ | ⟨kv, _, hkv⟩
    · rw [← hp]; exact ⟨rfl, rfl⟩
    · rw [← hkv]; exact ⟨rfl, rfl⟩
  · intro p hp
    unfold shutdown
    simp only [List.mem_append, List.mem_map]
    exact Or.inl ⟨p, hp, rfl⟩
  · intro kv hkv
    unfold shutdown
    simp only [List.mem_append, List.mem_map]
    exact Or.inr ⟨kv, hkv, rfl⟩

lemma mem_registerPfx_of_mem {acc : List Name} {p : Name} (q : Name)
    (h : p ∈ acc) : p ∈ registerPfx acc q := by
  unfold registerPfx
  split
  · exact h
  · exact List.mem_append_left _ h

lemma mem_registerAll_of_mem {p : Name} (ps : List Name) :
    ∀ acc : List Name, p ∈ acc → p ∈ registerAll acc ps := by
  induction ps with
  | nil => intro acc h; exact h
  | cons q qs ih =>
    intro acc h
    exact ih (registerPfx acc q) (mem_registerPfx_of_mem q h)

lemma self_mem_registerPfx (acc : List Name) (q : Name) : q ∈ registerPfx acc q := by
  unfold registerPfx
  split
  · assumption
  · simp

lemma mem_registerAll (ps : List Name) :
    ∀ acc : List Name, ∀ p ∈ ps, p ∈ registerAll acc ps := by
  induction ps with
  | nil => intro acc p hp; exact absurd hp (by simp)
  | cons q qs ih =>
    intro acc p hp
    rcases List.mem_cons.1 hp with hq | hqs
    · rw [hq]
      exact mem_registerAll_of_mem qs _ (self_mem_registerPfx acc q)
    · exact ih _ p hqs

lemma registerAll_eq_of_subset (ps : List Name) :
    ∀ acc : List Name, (∀ p ∈ ps, p ∈ acc) → registerAll acc ps = acc := by
  induction ps with
  | nil => intro acc _; rfl
  | cons q qs ih =>
    intro acc hsub
    have hq : q ∈ acc := hsub q (by simp)
    have hstep : registerPfx acc q = acc := by
      unfold registerPfx
      exact if_pos hq
    show registerAll (registerPfx acc q) qs = acc
    rw [hstep]
    exact ih acc (fun p hp => hsub p (List.mem_cons_of_mem q hp))

lemma registerAll_idem (acc ps : List Name) :
    registerAll (registerAll acc ps) ps = registerAll acc ps :=
  registerAll_eq_of_subset ps _ (fun p hp => mem_registerAll ps acc p hp)

/-- Claim C6: `Initialize` is idempotent — running it a second time
against the same directory contents leaves the whole manager state
exactly as after the first run. -/
theorem initialize_idempotent (m : TorrentManager) (d : World) :
    Initialize (Initialize m d) d = Initialize m d := by
  cases m with
  | mk fs ts fm tn dp sf fc st sti r sc pi iq rp =>
    dsimp only [Initialize]
    rw [TorrentManager.mk.injEq]
    refine ⟨rfl, rfl, rfl, rfl, rfl, rfl, rfl, rfl, rfl, rfl, rfl, rfl, rfl, ?_⟩
    exact registerAll_idem _ _

lemma pumpLoop_window (qs : List QueueEntry) :
    ∀ pend sent, pend.length ≤ WINDOW_SIZE →
      (pumpLoop qs pend sent).2.1.length ≤ WINDOW_SIZE := by
  induction qs with
  | nil =>
    intro pend sent h
    exact h
  | cons q rest ih =>
    intro pend sent h
    unfold pumpLoop
    split
    · apply ih
      rename_i hlt
      rw [List.length_append]
      simp only [List.length_cons, List.length_nil]
      omega
    · exact h

lemma removePending_length_le (l : List PendingEntry) (n : Name) :
    (removePending l n).length ≤ l.length :=
  List.length_filter_le _ _

lemma onRequestFailure_pending_le (m : TorrentManager) (n : Name) (reason : String) :
    (onRequestFailure m n reason).1.pendingInterests.length ≤
      m.pendingInterests.length := by
  unfold onRequestFailure
  cases hfind : m.pendingInterests.find? (fun e => e.name == n) with
  | none => exact le_refl _
  | some e =>
    dsimp only
    split
    · simp
    · split
      · simp
      · exact removePending_length_le _ _

lemma onDataReceived_pending_le (m : TorrentManager) (d : DataMsg) :
    (onDataReceived m d).1.pendingInterests.length ≤ m.pendingInterests.length := by
  unfold onDataReceived
  split
  · exact le_refl _
  · split
    · cases d.content with
      | torrentSeg t =>
        simp only [processTorrentSeg]
        exact removePending_length_le _ _
      | manifestSeg f =>
        simp only [processManifestSeg]
        split
        · exact removePending_length_le _ _
        · exact removePending_length_le _ _
      | dataPkt payload =>
        simp only [processDataPkt]
        cases m.fileManifests.find? (fun f => f.catalog.contains d.name) with
        | none => exact le_refl _
        | some f => exact removePending_length_le _ _
    · exact onRequestFailure_pending_le m d.name "ValidationFailed"

lemma step_preserves_window {s s' : TorrentManager} (h : Step s s')
    (hs : s.pendingInterests.length ≤ WINDOW_SIZE) :
    s'.pendingInterests.length ≤ WINDOW_SIZE := by
  cases h with
  | pump => exact pumpLoop_window _ _ _ hs
  | recv d => exact le_trans (onDataReceived_pending_le s d) hs
  | fail n reason => exact le_trans (onRequestFailure_pending_le s n reason) hs
  | enqueue q => exact hs
  | halt => simp [shutdown, WINDOW_SIZE]
  | init d => exact hs

/-- Claim C4: from a freshly constructed manager, every state reachable
by event-loop steps keeps the pending-interest set within
`WINDOW_SIZE` = 50 entries. -/
theorem pending_le_window (torrentFileName : Name) (dataPath : String)
    (seed : Bool) (face : Option Unit) (s : TorrentManager)
    (h : Relation.ReflTransGen Step
      (TorrentManager.construct torrentFileName dataPath seed face) s) :
    s.pendingInterests.length ≤ WINDOW_SIZE := by
  induction h with
  | refl =>
    cases face <;> simp [TorrentManager.construct, WINDOW_SIZE]
  | tail hab hbc ih => exact step_preserves_window hbc ih

/-- The window bound instantiated at a concrete construction. -/
theorem pending_le_window_witness :
    (TorrentManager.construct ["nt"] "data" true none).pendingInterests.length ≤
      WINDOW_SIZE :=
  pending_le_window ["nt"] "data" true none _ Relation.ReflTransGen.refl

lemma find?_pending_none_of_not_mem {m : TorrentManager} {n : Name}
    (h : n ∉ pendingNames m) :
    m.pendingInterests.find? (fun e => e.name == n) = none := by
  rw [List.find?_eq_none]
  intro e he hbeq
  apply h
  unfold pendingNames
  exact List.mem_map.2 ⟨e, he, eq_of_beq hbeq⟩

lemma onDataReceived_not_pending (m : TorrentManager) (d : DataMsg)
    (h : d.name ∉ pendingNames m) :
    onDataReceived m d = (m, []) := by
  unfold onDataReceived
  rw [find?_pending_none_of_not_mem h]
  simp

lemma not_mem_map_removePending (l : List PendingEntry) (n : Name) :
    n ∉ (removePending l n).map PendingEntry.name := by
  intro h
  obtain ⟨e, he, hname⟩ := List.mem_map.1 h
  unfold removePending at he
  rw [List.mem_filter] at he
  have hflt := he.2
  rw [hname] at hflt
  simp at hflt

lemma onRequestFailure_no_write (m : TorrentManager) (n : Name) (reason : String) :
    ((onRequestFailure m n reason).2.any Effect.isWriteOrSuccess) = false := by
  unfold onRequestFailure
  cases m.pendingInterests.find? (fun e => e.name == n) with
  | none => rfl
  | some e =>
    dsimp only
    split
    · rfl
    · split
      · rfl
      · simp [Effect.isWriteOrSuccess]

lemma onDataReceived_write_removes (m : TorrentManager) (d : DataMsg)
    (h : ((onDataReceived m d).2.any Effect.isWriteOrSuccess) = true) :
    d.name ∉ pendingNames (onDataReceived m d).1 := by
  obtain ⟨dn, dc⟩ := d
  unfold onDataReceived at h ⊢
  unfold pendingNames
  by_cases hpend :
      (m.pendingInterests.find? (fun e => e.name == (DataMsg.mk dn dc).name)).isNone = true
  · rw [if_pos hpend] at h
    exact absurd h (by simp)
  · rw [if_neg hpend] at h ⊢
    by_cases hval : validateMsg m (DataMsg.mk dn dc) = true
    · rw [if_pos hval] at h ⊢
      cases dc with
      | torrentSeg t =>
        have hname : t.name = dn := by
          unfold validateMsg at hval
          dsimp only at hval
          rw [Bool.and_eq_true] at hval
          exact eq_of_beq hval.1
        dsimp only [processTorrentSeg]
        rw [← hname]
        exact not_mem_map_removePending _ _
      | manifestSeg f =>
        have hname : f.name = dn := by
          unfold validateMsg at hval
          dsimp only at hval
          rw [Bool.and_eq_true] at hval
          exact eq_of_beq hval.1
        dsimp only [processManifestSeg]
        cases f.manifestPtr with
        | none =>
          dsimp only
          rw [← hname]
          exact not_mem_map_removePending _ _
        | some nxt =>
          dsimp only
          rw [← hname]
          exact not_mem_map_removePending _ _
      | dataPkt payload =>
        dsimp only [processDataPkt] at h ⊢
        cases hfind : m.fileManifests.find? (fun f => f.catalog.contains dn) with
        | none =>
          rw [hfind] at h
          exact absurd h (by simp)
        | some f =>
          dsimp only
          exact not_mem_map_removePending _ _
    · rw [if_neg hval] at h
      rw [onRequestFailure_no_write] at h
      exact absurd h (by simp)

/-- Claim C7: an incoming data packet whose name is not pending is
discarded with no state change and no effects, and after a packet has
been accepted (written or its success callback fired), an immediate
re-delivery of the same packet is such a no-op: no duplicate disk write,
no duplicate callback, no state change. -/
theorem redelivery_noop (m : TorrentManager) (d : DataMsg) :
    (d.name ∉ pendingNames m → onDataReceived m d = (m, [])) ∧
    (((onDataReceived m d).2.any Effect.isWriteOrSuccess) = true →
      d.name ∉ pendingNames (onDataReceived m d).1 ∧
      onDataReceived (onDataReceived m d).1 d = ((onDataReceived m d).1, [])) := by
  refine ⟨fun h => onDataReceived_not_pending m d h, fun h => ?_⟩
  have hrm := onDataReceived_write_removes m d h
  exact ⟨hrm, onDataReceived_not_pending _ d hrm⟩

lemma find?_decomp (pre post : List PendingEntry) (e : PendingEntry)
    (hpre : ∀ x ∈ pre, (x.name == e.name) = false) :
    (pre ++ e :: post).find? (fun x => x.name == e.name) = some e := by
  induction pre with
  | nil =>
    rw [List.nil_append]
    have : (e.name == e.name) = true := beq_self_eq_true e.name
    simp [List.find?_cons, this]
  | cons a as ih =>
    have ha := hpre a (by simp)
    rw [List.cons_append, List.find?_cons, ha]
    exact ih (fun x hx => hpre x (List.mem_cons_of_mem a hx))

lemma map_update_id (l : List PendingEntry) (n : Name)
    (f : PendingEntry → PendingEntry)
    (hl : ∀ x ∈ l, (x.name == n) = false) :
    l.map (fun x => if x.name == n then f x else x) = l := by
  induction l with
  | nil => rfl
  | cons a as ih =>
    have ha := hl a (by simp)
    rw [List.map_cons, if_neg (by rw [ha]; exact Bool.false_ne_true)]
    rw [ih (fun x hx => hl x (List.mem_cons_of_mem a hx))]

lemma map_update_decomp (pre post : List PendingEntry) (n : Name)
    (f : PendingEntry → PendingEntry) (e : PendingEntry)
    (he : (e.name == n) = true)
    (hpre : ∀ x ∈ pre, (x.name == n) = false)
    (hpost : ∀ x ∈ post, (x.name == n) = false) :
    (pre ++ e :: post).map (fun x => if x.name == n then f x else x)
      = pre ++ f e :: post := by
  rw [List.map_append, List.map_cons, if_pos he,
    map_update_id pre n f hpre, map_update_id post n f hpost]

lemma removePending_decomp (pre post : List PendingEntry) (n : Name)
    (e : PendingEntry) (he : (e.name == n) = true)
    (hpre : ∀ x ∈ pre, (x.name == n) = false)
    (hpost : ∀ x ∈ post, (x.name == n) = false) :
    removePending (pre ++ e :: post) n = pre ++ post := by
  unfold removePending
  rw [List.filter_append, List.filter_cons]
  have h1 : pre.filter (fun e2 => ! (e2.name == n)) = pre :=
    List.filter_eq_self.2 (fun x hx => by rw [hpre x hx]; rfl)
  have h2 : post.filter (fun e2 => ! (e2.name == n)) = post :=
    List.filter_eq_self.2 (fun x hx => by rw [hpost x hx]; rfl)
  rw [h1, h2, he]
  rfl

lemma not_mem_names_of_beq_false (l : List PendingEntry) (n : Name)
    (hl : ∀ x ∈ l, (x.name == n) = false) :
    n ∉ l.map PendingEntry.name := by
  intro h
  obtain ⟨e, he, hname⟩ := List.mem_map.1 h
  have hbeq := hl e he
  rw [hname] at hbeq
  rw [beq_self_eq_true] at hbeq
  exact absurd hbeq (by simp)

/-- One failure of the request for `n` whose pending entry has retry
counter `r` and `ex` exhausted prefixes: the three rungs of the retry
ladder, field by field. -/
lemma onRequestFailure_step (m2 : TorrentManager) (n : Name) (reason : String)
    (prio : Priority) (r ex : Nat) (pre post : List PendingEntry)
    (hpend : m2.pendingInterests = pre ++ ⟨n, prio, r, ex⟩ :: post)
    (hpre : ∀ x ∈ pre, (x.name == n) = false)
    (hpost : ∀ x ∈ post, (x.name == n) = false) :
    (r + 1 < MAX_NUM_OF_RETRIES →
      (onRequestFailure m2 n reason).1.pendingInterests
        = pre ++ ⟨n, prio, r + 1, ex⟩ :: post ∧
      (onRequestFailure m2 n reason).1.interestQueue
        = m2.interestQueue ++ [⟨n, prio⟩] ∧
      (onRequestFailure m2 n reason).1.statsTable = m2.statsTable ∧
      (onRequestFailure m2 n reason).1.statsTableIter = m2.statsTableIter ∧
      (onRequestFailure m2 n reason).2 = []) ∧
    (r + 1 = MAX_NUM_OF_RETRIES → ex + 1 < m2.statsTable.length →
      (onRequestFailure m2 n reason).1.pendingInterests
        = pre ++ ⟨n, prio, 0, ex + 1⟩ :: post ∧
      (onRequestFailure m2 n reason).1.interestQueue
        = m2.interestQueue ++ [⟨n, prio⟩] ∧
      (onRequestFailure m2 n reason).1.statsTable = m2.statsTable ∧
      (onRequestFailure m2 n reason).1.statsTableIter
        = (m2.statsTableIter + 1) % m2.statsTable.length ∧
      (onRequestFailure m2 n reason).2 = []) ∧
    (r + 1 = MAX_NUM_OF_RETRIES → ¬ (ex + 1 < m2.statsTable.length) →
      (onRequestFailure m2 n reason).1.pendingInterests = pre ++ post ∧
      (onRequestFailure m2 n reason).1.interestQueue = m2.interestQueue ∧
      (onRequestFailure m2 n reason).1.statsTable = m2.statsTable ∧
      (onRequestFailure m2 n reason).2 = [Effect.onFailedCb n reason]) := by
  have hfind : m2.pendingInterests.find? (fun x => x.name == n)
      = some ⟨n, prio, r, ex⟩ := by
    rw [hpend]
    exact find?_decomp pre post ⟨n, prio, r, ex⟩ hpre
  have hself : ((⟨n, prio, r, ex⟩ : PendingEntry).name == n) = true :=
    beq_self_eq_true n
  refine ⟨?_, ?_, ?_⟩
  · intro hlt
    unfold onRequestFailure
    rw [hfind]
    dsimp only
    rw [if_pos hlt]
    refine ⟨?_, rfl, rfl, rfl, rfl⟩
    dsimp only
    rw [hpend]
    exact map_update_decomp pre post n _ _ hself hpre hpost
  · intro heq hex
    unfold onRequestFailure
    rw [hfind]
    dsimp only
    rw [if_neg (by omega), if_pos hex]
    refine ⟨?_, rfl, rfl, rfl, rfl⟩
    dsimp only
    rw [hpend]
    exact map_update_decomp pre post n _ _ hself hpre hpost
  · intro heq hex
    unfold onRequestFailure
    rw [hfind]
    dsimp only
    rw [if_neg (by omega), if_neg hex]
    refine ⟨?_, rfl, rfl, rfl⟩
    dsimp only
    rw [hpend]
    exact removePending_decomp pre post n _ hself hpre hpost

/-- The state after `k` consecutive failures of one freshly pending
request: while `k` is below five failures per prefix times the number of
prefixes, the entry survives with retry counter `k mod 5` and `k / 5`
prefixes exhausted, each failure re-enqueued the request, and no callback
fired; at exactly `5 · |statsTable|` failures the entry is gone, the last
step re-enqueued nothing, and exactly the one `onFailed` callback fired. -/
lemma failTimes_evolution (m : TorrentManager) (n : Name) (reason : String)
    (prio : Priority) (pre post : List PendingEntry)
    (hpend : m.pendingInterests = pre ++ ⟨n, prio, 0, 0⟩ :: post)
    (hpre : ∀ x ∈ pre, (x.name == n) = false)
    (hpost : ∀ x ∈ post, (x.name == n) = false)
    (hP : 0 < m.statsTable.length) :
    ∀ k, k ≤ 5 * m.statsTable.length →
      ((k < 5 * m.statsTable.length →
        (failTimes m n reason k).1.pendingInterests
          = pre ++ ⟨n, prio, k % 5, k / 5⟩ :: post ∧
        (failTimes m n reason k).1.interestQueue
          = m.interestQueue ++ List.replicate k (QueueEntry.mk n prio) ∧
        (failTimes m n reason k).1.statsTable = m.statsTable ∧
        (failTimes m n reason k).2 = []) ∧
      (k = 5 * m.statsTable.length →
        (failTimes m n reason k).1.pendingInterests = pre ++ post ∧
        (failTimes m n reason k).1.interestQueue
          = m.interestQueue ++ List.replicate (k - 1) (QueueEntry.mk n prio) ∧
        (failTimes m n reason k).2 = [Effect.onFailedCb n reason])) := by
  intro k
  induction k with
  | zero =>
    intro hk
    refine ⟨fun hlt => ⟨by simpa [failTimes] using hpend, by simp [failTimes],
      by simp [failTimes], by simp [failTimes]⟩, fun heq => absurd heq.symm (by omega)⟩
  | succ k ih =>
    intro hk
    have hklt : k < 5 * m.statsTable.length := by omega
    obtain ⟨hpk, hqk, htk, hek⟩ := (ih (by omega)).1 hklt
    have hstep := onRequestFailure_step (failTimes m n reason k).1 n reason prio
      (k % 5) (k / 5) pre post hpk hpre hpost
    have hsucc : failTimes m n reason (k + 1)
        = ((onRequestFailure (failTimes m n reason k).1 n reason).1,
           (failTimes m n reason k).2
             ++ (onRequestFailure (failTimes m n reason k).1 n reason).2) := rfl
    by_cases hr : k % 5 + 1 < MAX_NUM_OF_RETRIES
    · -- below five failures under the current prefix
      obtain ⟨hp2, hq2, ht2, hi2, he2⟩ := hstep.1 hr
      have hk1 : k + 1 < 5 * m.statsTable.length := by
        have h5 : MAX_NUM_OF_RETRIES = 5 := rfl
        rw [h5] at hr
        omega
      refine ⟨fun _ => ⟨?_, ?_, ?_, ?_⟩, fun heq => absurd heq (by omega)⟩
      · rw [hsucc]
        dsimp only
        rw [hp2]
        have hmod : k % 5 + 1 = (k + 1) % 5 := by
          have h5 : MAX_NUM_OF_RETRIES = 5 := rfl
          rw [h5] at hr
          omega
        have hdiv : k / 5 = (k + 1) / 5 := by
          have h5 : MAX_NUM_OF_RETRIES = 5 := rfl
          rw [h5] at hr
          omega
        rw [hmod, hdiv]
      · rw [hsucc]
        dsimp only
        rw [hq2, hqk, List.append_assoc]
        rw [← List.replicate_succ' k (QueueEntry.mk n prio)]
      · rw [hsucc]
        dsimp only
        rw [ht2, htk]
      · rw [hsucc]
        dsimp only
        rw [hek, he2]
        rfl
    · -- fifth consecutive failure under the current prefix
      have hr5 : k % 5 + 1 = MAX_NUM_OF_RETRIES := by
        have h5 : MAX_NUM_OF_RETRIES = 5 := rfl
        rw [h5] at hr ⊢
        omega
      by_cases hex : k / 5 + 1 < (failTimes m n reason k).1.statsTable.length
      · -- further prefixes remain: rotate and re-enqueue
        obtain ⟨hp2, hq2, ht2, hi2, he2⟩ := hstep.2.1 hr5 hex
        have hexm : k / 5 + 1 < m.statsTable.length := by rw [← htk]; exact hex
        have hk1 : k + 1 < 5 * m.statsTable.length := by
          have h5 : MAX_NUM_OF_RETRIES = 5 := rfl
          rw [h5] at hr5
          omega
        refine ⟨fun _ => ⟨?_, ?_, ?_, ?_⟩, fun heq => absurd heq (by omega)⟩
        · rw [hsucc]
          dsimp only
          rw [hp2]
          have hmod : (0 : Nat) = (k + 1) % 5 := by
            have h5 : MAX_NUM_OF_RETRIES = 5 := rfl
            rw [h5] at hr5
            omega
          have hdiv : k / 5 + 1 = (k + 1) / 5 := by
            have h5 : MAX_NUM_OF_RETRIES = 5 := rfl
            rw [h5] at hr5
            omega
          rw [← hmod, ← hdiv]
        · rw [hsucc]
          dsimp only
          rw [hq2, hqk, List.append_assoc]
          rw [← List.replicate_succ' k (QueueEntry.mk n prio)]
        · rw [hsucc]
          dsimp only
          rw [ht2, htk]
        · rw [hsucc]
          dsimp only
          rw [hek, he2]
          rfl
      · -- all prefixes exhausted: terminal failure
        obtain ⟨hp2, hq2, ht2, he2⟩ := hstep.2.2 hr5 hex
        have hexm : ¬ (k / 5 + 1 < m.statsTable.length) := by rw [← htk]; exact hex
        have hk1 : k + 1 = 5 * m.statsTable.length := by
          have h5 : MAX_NUM_OF_RETRIES = 5 := rfl
          rw [h5] at hr5
          omega
        refine ⟨fun hlt => absurd hlt (by omega), fun _ => ⟨?_, ?_, ?_⟩⟩
        · rw [hsucc]
          dsimp only
          rw [hp2]
        · rw [hsucc]
          dsimp only
          rw [hq2, hqk]
          simp
        · rw [hsucc]
          dsimp only
          rw [hek, he2]
          rfl

/-- Claim C1: the retry ladder. Each failure of an outstanding request
increments the retry counter scoped to the current prefix; below
`MAX_NUM_OF_RETRIES` the request is re-enqueued at its original priority
with the cursor unmoved; on the fifth consecutive failure the cursor
advances and the counter resets; only once every prefix of the stats
table has been exhausted does the per-object `onFailed` callback fire
(with the last reason), the name leave the pending set, and the request
stop being retried. -/
theorem retry_ladder_spec (m : TorrentManager) (n : Name) (reason : String)
    (prio : Priority) (pre post : List PendingEntry) :
    (∀ e, m.pendingInterests.find? (fun x => x.name == n) = some e →
      ((e.retries + 1 < MAX_NUM_OF_RETRIES →
        (onRequestFailure m n reason).1.interestQueue
          = m.interestQueue ++ [⟨n, e.priority⟩] ∧
        (onRequestFailure m n reason).1.statsTableIter = m.statsTableIter ∧
        (onRequestFailure m n reason).2 = []) ∧
      (e.retries + 1 = MAX_NUM_OF_RETRIES → e.exhausted + 1 < m.statsTable.length →
        (onRequestFailure m n reason).1.interestQueue
          = m.interestQueue ++ [⟨n, e.priority⟩] ∧
        (onRequestFailure m n reason).1.statsTableIter
          = (m.statsTableIter + 1) % m.statsTable.length ∧
        (onRequestFailure m n reason).2 = []) ∧
      (e.retries + 1 = MAX_NUM_OF_RETRIES → ¬ (e.exhausted + 1 < m.statsTable.length) →
        (onRequestFailure m n reason).2 = [Effect.onFailedCb n reason] ∧
        n ∉ pendingNames (onRequestFailure m n reason).1 ∧
        (onRequestFailure m n reason).1.interestQueue = m.interestQueue))) ∧
    (m.pendingInterests = pre ++ ⟨n, prio, 0, 0⟩ :: post →
      (∀ x ∈ pre, (x.name == n) = false) →
      (∀ x ∈ post, (x.name == n) = false) →
      0 < m.statsTable.length →
      (∀ k, k < MAX_NUM_OF_RETRIES * m.statsTable.length →
        n ∈ pendingNames (failTimes m n reason k).1 ∧
        (failTimes m n reason k).2 = []) ∧
      (failTimes m n reason (MAX_NUM_OF_RETRIES * m.statsTable.length)).2
        = [Effect.onFailedCb n reason] ∧
      n ∉ pendingNames
        (failTimes m n reason (MAX_NUM_OF_RETRIES * m.statsTable.length)).1 ∧
      (failTimes m n reason (MAX_NUM_OF_RETRIES * m.statsTable.length)).1.interestQueue
        = m.interestQueue ++
            List.replicate (MAX_NUM_OF_RETRIES * m.statsTable.length - 1)
              (QueueEntry.mk n prio)) := by
  constructor
  · intro e hfind
    unfold onRequestFailure
    rw [hfind]
    dsimp only
    refine ⟨?_, ?_, ?_⟩
    · intro hlt
      rw [if_pos hlt]
      exact ⟨rfl, rfl, rfl⟩
    · intro heq hex
      rw [if_neg (by omega), if_pos hex]
      exact ⟨rfl, rfl, rfl⟩
    · intro heq hex
      rw [if_neg (by omega), if_neg hex]
      refine ⟨rfl, ?_, rfl⟩
      unfold pendingNames
      dsimp only
      exact not_mem_map_removePending _ _
  · intro hpend hpre hpost hP
    have h5 : MAX_NUM_OF_RETRIES = 5 := rfl
    rw [h5]
    have hev := failTimes_evolution m n reason prio pre post hpend hpre hpost hP
    refine ⟨?_, ?_, ?_, ?_⟩
    · intro k hk
      obtain ⟨hpk, _, _, hek⟩ := (hev k (by omega)).1 hk
      refine ⟨?_, hek⟩
      unfold pendingNames
      rw [hpk]
      rw [List.map_append, List.map_cons]
      exact List.mem_append_right _ (by simp)
    · exact ((hev _ (le_refl _)).2 rfl).2.2
    · obtain ⟨hpk, _, _⟩ := (hev _ (le_refl _)).2 rfl
      unfold pendingNames
      rw [hpk, List.map_append]
      intro hmem
      rcases List.mem_append.1 hmem with hin | hin
      · exact absurd hin (not_mem_names_of_beq_false pre n hpre)
      · exact absurd hin (not_mem_names_of_beq_false post n hpost)
    · exact ((hev _ (le_refl _)).2 rfl).2.1

end NTorrent
